import Mathlib

/-!
Verification of the schema-assembly, validation and serialization core of
`aiomongodel` (`aiomongodel/document.py`), as a shallow embedding.

Python ordered dicts (`OrderedDict`, `SON`, class namespaces) are embedded as
association lists `List (String × α)` together with an in-place-or-append
assignment `odInsert`, which is exactly the ordered-dict update semantics:
assigning to an existing key replaces the value at its original position,
assigning a new key appends it.

The external field library (`aiomongodel.fields`, not among the sources here)
is embedded through its contract (spec §6): each field descriptor carries a
wire name, a required flag, a default (static value or factory), a
validate-and-normalize operation and the two wire conversions.
-/

namespace Aiomongodel

/-- Keys of an association list, in order (the key sequence of an ordered dict). -/
def keys (l : List (String × α)) : List String := l.map Prod.fst

/-- Association-list lookup, mirroring Python dict access `d[k]`
(`none` models a `KeyError`). -/
def alookup : List (String × α) → String → Option α
  | [], _ => none
  | q :: rest, k => if q.1 = k then some q.2 else alookup rest k

/-- Ordered-dict assignment `d[k] = v`: if the key already exists its value is
replaced in place (keeping the original position), otherwise the pair is
appended at the end. -/
def odInsert : List (String × α) → String → α → List (String × α)
  | [], k, v => [(k, v)]
  | q :: rest, k, v => if q.1 = k then (k, v) :: rest else q :: odInsert rest k v

/-- Modelled from the spec: the Field Descriptor contract (§6) of the external
field library `aiomongodel.fields`, whose code is not among the sources here.
`name` is the canonical attribute name (assigned by the metaclass when the
declaration gives none), `mongo_name` the wire name, `required` the required
flag. `default` models the `default` property: `none` is the `_Empty`
sentinel ("no default"); a static default ignores the `Nat` argument, while a
default factory (such as `lambda: ObjectId()`) consumes it as its freshness
seed. `validate` is validate-and-normalize (performed by attribute
assignment), `to_son`/`from_son` the two wire conversions. -/
structure Field (V : Type) where
  name : Option String
  mongo_name : String
  required : Bool
  default : Nat → Option V
  validate : V → Except String V
  to_son : V → V
  from_son : V → V

/-- A class-body member as scanned by `BaseDocumentMeta._get_fields`: a field
descriptor, a synonym declaration (carrying `origin_field_name`, the canonical
name of the field it aliases), or any other attribute. -/
inductive Member (V : Type) where
  | field (f : Field V)
  | synonym (origin_field_name : String)
  | other

/-- The document meta information the instance-level code reads:
`meta.fields` (ordered mapping field name → descriptor) and
`meta.fields_synonyms` (mapping canonical field name → synonym name). -/
structure Meta (V : Type) where
  fields : List (String × Field V)
  fields_synonyms : List (String × String)

/-- A document instance: its `_data` ordered mapping from field name to value.
A field absent from `_data` is unset. -/
structure Doc (V : Type) where
  _data : List (String × V)
deriving DecidableEq

/-- Source `Meta.OPTIONS`: the recognized meta option keys. -/
def OPTIONS : List String :=
  ["query_class", "collection_name",
   "default_query", "default_sort",
   "fields", "fields_synonyms", "indexes",
   "codec_options", "read_preference", "read_concern",
   "write_concern"]

/-- Source `Meta._validate_options`: the keys of the supplied option dict that are
outside `OPTIONS`; if any exist, raise carrying exactly those offending keys
(`'Unrecognized Meta options: ...'`, listing the difference). -/
def validate_options (ks : List String) : Except (List String) Unit :=
  let diff := ks.filter fun k => decide (k ∉ OPTIONS)
  if diff.isEmpty then Except.ok () else Except.error diff

/-- Source `if not item.name: item.name = name`: assign the declaration name to a
field descriptor that has no canonical name yet. -/
def withName (f : Field V) (n : String) : Field V :=
  if f.name.isNone then { f with name := some n } else f

/-- One step of the `BaseDocumentMeta._get_fields` namespace scan: a field
member is assigned into the accumulated ordered `fields` dict under its
declaration name; a synonym member is recorded as an `(origin, synonym-name)`
occurrence (the `synonyms[item] = name` dict keyed by the distinct synonym
objects, kept in insertion order); other members are skipped. -/
def gatherStep (acc : List (String × Field V) × List (String × String))
    (q : String × Member V) : List (String × Field V) × List (String × String) :=
  match q.2 with
  | Member.field f => (odInsert acc.1 q.1 (withName f q.1), acc.2)
  | Member.synonym o => (acc.1, acc.2 ++ [(o, q.1)])
  | Member.other => acc

/-- The `BaseDocumentMeta._get_fields` walk over the reversed MRO namespaces
(oldest ancestor first, most derived last), accumulating the ordered field
dict and the synonym occurrences. -/
def gatherAll (nss : List (List (String × Member V))) :
    List (String × Field V) × List (String × String) :=
  nss.foldl (fun acc ns => ns.foldl gatherStep acc) ([], [])

/-- Source `BaseDocumentMeta._get_fields`: the gathered ordered field mapping, and the
synonym table `{item.origin_field_name: name}` rebuilt from the occurrence
list as a dict comprehension (first-encounter position, last value wins). -/
def get_fields (nss : List (List (String × Member V))) :
    List (String × Field V) × List (String × String) :=
  ((gatherAll nss).1, (gatherAll nss).2.foldl (fun m q => odInsert m q.1 q.2) [])

/-- Modelled from the spec: `DocumentMeta.default_id_field`, an
`ObjectIdField(name='_id', required=True, default=lambda: ObjectId())` of the
external field library. `objId` stands for the external `ObjectId` generator,
fed by the freshness seed; wire name fixed to `_id`; validation accepts the
generated value; identity wire conversions. -/
def default_id_field (objId : Nat → V) : Field V :=
  { name := some "_id", mongo_name := "_id", required := true,
    default := fun n => some (objId n), validate := Except.ok,
    to_son := id, from_son := id }

/-- Source `DocumentMeta._get_fields`: after gathering, inject `default_id_field`
under `_id` when no field of that name exists; otherwise require the declared
`_id` field to be marked required, failing class definition if it is not. -/
def document_get_fields (objId : Nat → V) (className : String)
    (nss : List (List (String × Member V))) :
    Except String (List (String × Field V) × List (String × String)) :=
  match alookup (get_fields nss).1 "_id" with
  | none =>
      Except.ok (odInsert (get_fields nss).1 "_id" (default_id_field objId),
                 (get_fields nss).2)
  | some idf =>
      if idf.required then Except.ok (get_fields nss)
      else Except.error (className ++ "._id field should be required.")

/-- A meta option value: a string (such as a collection name), the default
query class `MotorQuerySet`, or any other object. -/
inductive OptVal where
  | str (s : String)
  | motorQuerySet
  | other (n : Nat)
deriving DecidableEq

/-- A document class declaration as the metaclass sees it: the class name, the
reversed-MRO field namespaces, the class's OWN inner `Meta` namespace
(`new_class.__dict__.get('Meta', None)` — attribute lookup on ancestors is
never used), and, for reference, the ancestors' inner `Meta` namespaces
(visible through Python attribute lookup but not read by this code). -/
structure ClassDecl (V : Type) where
  className : String
  nss : List (List (String × Member V))
  ownMeta : Option (List (String × OptVal))
  ancestorMetas : List (List (String × OptVal))

/-- Check `key.startswith('__')`: the key's first two characters are underscores. -/
def dunder (s : String) : Bool := decide (s.data.take 2 = ['_', '_'])

/-- Source `BaseDocumentMeta._get_meta_options`: the class's own `Meta` namespace with
dunder keys stripped; empty when the class declares no `Meta` block. -/
def base_get_meta_options (decl : ClassDecl V) : List (String × OptVal) :=
  match decl.ownMeta with
  | none => []
  | some ns => ns.filter fun q => !(dunder q.1)

/-- Modelled from the spec: `snake_case` from the utility module (not among the
sources here) — "collection name = derived-case of class name": underscore
before each interior uppercase letter, everything lowercased. -/
def snake_case (s : String) : String :=
  String.mk (s.data.foldl
    (fun acc c =>
      if c.isUpper && !acc.isEmpty then acc ++ ['_', c.toLower]
      else acc ++ [c.toLower]) [])

/-- Source `DocumentMeta._get_meta_options`: the base options, with
`collection_name` defaulted to the snake case of the class name and
`query_class` defaulted to `MotorQuerySet` when unset. -/
def document_get_meta_options (decl : ClassDecl V) : List (String × OptVal) :=
  let mo := base_get_meta_options decl
  let mo2 :=
    match alookup mo "collection_name" with
    | some _ => mo
    | none => odInsert mo "collection_name" (OptVal.str (snake_case decl.className))
  match alookup mo2 "query_class" with
  | some _ => mo2
  | none => odInsert mo2 "query_class" OptVal.motorQuerySet

/-- Source `BaseDocument._get_field_value_from_data`: look the field name up in the
data; on `KeyError`, retry under the field's registered synonym name (a
missing synonym registration is itself a `KeyError`, i.e. `none`). -/
def get_field_value_from_data (meta : Meta V) (data : List (String × V))
    (field_name : String) : Option V :=
  match alookup data field_name with
  | some v => some v
  | none => (alookup meta.fields_synonyms field_name).bind fun syn => alookup data syn

/-- The value `BaseDocument.__init__` resolves for one field: the kwargs value
under the canonical or synonym name, else the field's default (`field.default`,
with `seed` feeding a default factory). -/
def resolvedValue (meta : Meta V) (seed : Nat) (kwargs : List (String × V))
    (fn : String) (f : Field V) : Option V :=
  match get_field_value_from_data meta kwargs fn with
  | some v => some v
  | none => f.default seed

/-- One iteration of the `BaseDocument.__init__` field loop over the pair
(`self._data`, `errors`): a missing value on a required field records
`'field is required'`; otherwise the resolved value is assigned through the
field descriptor, storing the normalized value or recording the
`ValidationError`. -/
def initStep (meta : Meta V) (seed : Nat) (kwargs : List (String × V))
    (acc : List (String × V) × List (String × String)) (p : String × Field V) :
    List (String × V) × List (String × String) :=
  match resolvedValue meta seed kwargs p.1 p.2 with
  | none =>
      if p.2.required then (acc.1, odInsert acc.2 p.1 "field is required") else acc
  | some v =>
      match p.2.validate v with
      | Except.ok v2 => (odInsert acc.1 p.1 v2, acc.2)
      | Except.error e => (acc.1, odInsert acc.2 p.1 e)

/-- The `BaseDocument.__init__` field loop: fold `initStep` over the schema in
order, from an empty `_data` and an empty `errors` dict. -/
def initAccum (meta : Meta V) (seed : Nat) (kwargs : List (String × V)) :
    List (String × V) × List (String × String) :=
  meta.fields.foldl (initStep meta seed kwargs) ([], [])

/-- Source `BaseDocument.__init__` (validated construction): run the field loop; if
any per-field errors were collected, raise the single aggregated
`ValidationError(error=errors)`, else return the populated instance. -/
def docInit (meta : Meta V) (seed : Nat) (kwargs : List (String × V)) :
    Except (List (String × String)) (Doc V) :=
  if (initAccum meta seed kwargs).2.isEmpty then
    Except.ok (Doc.mk (initAccum meta seed kwargs).1)
  else Except.error (initAccum meta seed kwargs).2

/-- Source `BaseDocument.to_son`: for each schema field present in `_data`, in schema
order, emit its wire-converted value into the `SON` under the field's
`mongo_name`. -/
def to_son (meta : Meta V) (d : Doc V) : List (String × V) :=
  meta.fields.foldl
    (fun son p =>
      match alookup d._data p.1 with
      | some v => odInsert son p.2.mongo_name (p.2.to_son v)
      | none => son) []

/-- Source `BaseDocument._set_son` on a fresh instance: for each schema field whose
`mongo_name` is present in the mongo record, store the from-wire conversion
under the field name; missing record entries are skipped
(`contextlib.suppress(KeyError)`). `_data` is reset first, so the method is
modelled as building the instance outright. -/
def set_son (meta : Meta V) (data : List (String × V)) : Doc V :=
  Doc.mk (meta.fields.foldl
    (fun acc p =>
      match alookup data p.2.mongo_name with
      | some w => odInsert acc p.1 (p.2.from_son w)
      | none => acc) [])

/-- Source `BaseDocument.from_son`: create an empty instance and populate it from the
trusted mongo record via `_set_son`, with no validation. -/
def from_son (meta : Meta V) (data : List (String × V)) : Doc V :=
  set_son meta data

/-- Generic ordered-dict-building fold: each element may contribute one
`(key, value)` assignment. The source loops above are instances of it. -/
def insertFold (g : χ → Option (String × β)) (acc : List (String × β))
    (xs : List χ) : List (String × β) :=
  xs.foldl
    (fun s x =>
      match g x with
      | some kv => odInsert s kv.1 kv.2
      | none => s) acc

/-- The assignment the field-gathering scan makes for one class-body member. -/
def gF : (String × Member V) → Option (String × Field V) :=
  fun q =>
    match q.2 with
    | Member.field f => some (q.1, withName f q.1)
    | _ => none

/-- The synonym-occurrence accumulation of the field-gathering scan. -/
def synStep (b : List (String × String)) (q : String × Member V) :
    List (String × String) :=
  match q.2 with
  | Member.synonym o => b ++ [(o, q.1)]
  | _ => b

/-- The fields component of the namespace walk, as an iterated `insertFold`. -/
def fieldsAcc (nss : List (List (String × Member V))) : List (String × Field V) :=
  nss.foldl (fun a ns => insertFold gF a ns) []

/-- The `_data` assignment `__init__` makes for one schema field: the resolved
and successfully validated value under the field name. -/
def gdF (meta : Meta V) (seed : Nat) (kwargs : List (String × V))
    (p : String × Field V) : Option (String × V) :=
  (resolvedValue meta seed kwargs p.1 p.2).bind fun v =>
    match p.2.validate v with
    | Except.ok v2 => some (p.1, v2)
    | Except.error _ => none

/-- The `errors` assignment `__init__` makes for one schema field: a required
field with no resolvable value, or a resolved value failing validation. -/
def geF (meta : Meta V) (seed : Nat) (kwargs : List (String × V))
    (p : String × Field V) : Option (String × String) :=
  match resolvedValue meta seed kwargs p.1 p.2 with
  | none => if p.2.required then some (p.1, "field is required") else none
  | some v =>
      match p.2.validate v with
      | Except.ok _ => none
      | Except.error e => some (p.1, e)

/-- The `_data` mapping `__init__` builds, in closed form. -/
def initData (meta : Meta V) (seed : Nat) (kwargs : List (String × V)) :
    List (String × V) :=
  meta.fields.filterMap (gdF meta seed kwargs)

/-- The aggregated error mapping `__init__` collects, in closed form. -/
def initErrors (meta : Meta V) (seed : Nat) (kwargs : List (String × V)) :
    List (String × String) :=
  meta.fields.filterMap (geF meta seed kwargs)

/-- The `SON` assignment `to_son` makes for one schema field. -/
def gTo (d : Doc V) (p : String × Field V) : Option (String × V) :=
  (alookup d._data p.1).map fun v => (p.2.mongo_name, p.2.to_son v)

/-- The `_data` assignment `_set_son` makes for one schema field. -/
def gFrom (data : List (String × V)) (p : String × Field V) :
    Option (String × V) :=
  (alookup data p.2.mongo_name).map fun w => (p.1, p.2.from_son w)

/-- A concrete field descriptor over `Int` values: declared without an explicit
canonical name, identity validation and wire conversions. -/
def simpleField (mn : String) (req : Bool) (dflt : Option Int) : Field Int :=
  { name := none, mongo_name := mn, required := req, default := fun _ => dflt,
    validate := Except.ok, to_son := id, from_son := id }

/-- Concrete schema for the aggregated-error example: required `a` and `b`
with no default, optional `c`. -/
def metaReq : Meta Int :=
  { fields := [("a", simpleField "a" true none), ("b", simpleField "b" true none),
               ("c", simpleField "c" false none)],
    fields_synonyms := [] }

/-- Concrete schema for the round-trip example: required `name`, optional
`age` with default `0`. -/
def metaRt : Meta Int :=
  { fields := [("name", simpleField "name" true none),
               ("age", simpleField "age" false (some 0))],
    fields_synonyms := [] }

/-- Concrete schema for the synonym example: field `value` with synonym `val`. -/
def metaSyn : Meta Int :=
  { fields := [("value", simpleField "value" true none)],
    fields_synonyms := [("value", "val")] }

/-- Concrete base-class namespace for the override example: fields `x` and `y`. -/
def nsBase : List (String × Member Int) :=
  [("x", Member.field (simpleField "x" false (some 1))),
   ("y", Member.field (simpleField "y" false none))]

/-- Concrete subclass namespace redeclaring `x` with a different default. -/
def nsSub : List (String × Member Int) :=
  [("x", Member.field (simpleField "x" false (some 2)))]

/-- Concrete namespaces for the identifier-injection example: a single class
declaring only an optional `name` field and no `_id`. -/
def nssId : List (List (String × Member Int)) :=
  [[("name", Member.field (simpleField "name" false none))]]

/-- Concrete class declaration for the options example: a `Meta` block setting
only `default_sort`, under ancestors whose `Meta` blocks differ. -/
def declA : ClassDecl Int :=
  { className := "MyUser", nss := [],
    ownMeta := some [("default_sort", OptVal.other 1)],
    ancestorMetas := [[("collection_name", OptVal.str "users")]] }

/-- Same class name and own `Meta` block as `declA`, different ancestors. -/
def declB : ClassDecl Int :=
  { className := "MyUser", nss := [[("z", Member.other)]],
    ownMeta := some [("default_sort", OptVal.other 1)],
    ancestorMetas := [] }

theorem keys_cons (q : String × α) (rest : List (String × α)) :
    keys (q :: rest) = q.1 :: keys rest := rfl

theorem alookup_eq_none {l : List (String × α)} {k : String} :
    alookup l k = none ↔ k ∉ keys l := by
  induction l with
  | nil => simp [alookup, keys]
  | cons q rest ih =>
    rw [keys_cons]
    by_cases h : q.1 = k
    · simp [alookup, h]
    · simp only [alookup, if_neg h, List.mem_cons, ih]
      constructor
      · intro hn hor
        rcases hor with he | hm
        · exact h he.symm
        · exact hn hm
      · intro hn hm
        exact hn (Or.inr hm)

theorem alookup_append (l₁ l₂ : List (String × α)) (k : String) :
    alookup (l₁ ++ l₂) k =
      match alookup l₁ k with
      | some v => some v
      | none => alookup l₂ k := by
  induction l₁ with
  | nil => simp [alookup]
  | cons q rest ih => by_cases h : q.1 = k <;> simp [alookup, h, ih]

theorem odInsert_not_mem {l : List (String × α)} {k : String} (v : α)
    (h : k ∉ keys l) : odInsert l k v = l ++ [(k, v)] := by
  induction l with
  | nil => rfl
  | cons q rest ih =>
    simp only [keys, List.map_cons, List.mem_cons, not_or] at h
    simp [odInsert, Ne.symm h.1, ih h.2]

theorem keys_odInsert_mem {l : List (String × α)} {k : String} (v : α)
    (h : k ∈ keys l) : keys (odInsert l k v) = keys l := by
  induction l with
  | nil => simp [keys] at h
  | cons q rest ih =>
    by_cases hq : q.1 = k
    · simp [odInsert, hq, keys_cons]
    · rw [keys_cons] at h
      rcases List.mem_cons.mp h with he | hm
      · exact absurd he.symm hq
      · simp only [odInsert, if_neg hq, keys_cons, ih hm]

theorem keys_odInsert (l : List (String × α)) (k : String) (v : α) :
    keys (odInsert l k v) = if k ∈ keys l then keys l else keys l ++ [k] := by
  by_cases h : k ∈ keys l
  · rw [if_pos h, keys_odInsert_mem v h]
  · rw [if_neg h, odInsert_not_mem v h]
    simp [keys]

theorem alookup_odInsert (l : List (String × α)) (k : String) (v : α)
    (k' : String) :
    alookup (odInsert l k v) k' = if k = k' then some v else alookup l k' := by
  induction l with
  | nil => simp [odInsert, alookup]
  | cons q rest ih =>
    by_cases hq : q.1 = k
    · by_cases hk : k = k'
      · simp only [odInsert, if_pos hq, alookup, if_pos hk]
      · have hq' : ¬ q.1 = k' := fun h => hk (hq.symm.trans h)
        simp only [odInsert, if_pos hq, alookup, if_neg hk, if_neg hq']
    · by_cases hk : q.1 = k'
      · have hne : ¬ k = k' := fun h => hq (hk.trans h.symm)
        simp only [odInsert, if_neg hq, alookup, if_pos hk, if_neg hne]
      · simp only [odInsert, if_neg hq, alookup, if_neg hk, ih]

theorem nodup_keys_odInsert {l : List (String × α)} (k : String) (v : α)
    (h : (keys l).Nodup) : (keys (odInsert l k v)).Nodup := by
  rw [keys_odInsert]
  by_cases hm : k ∈ keys l
  · simp [hm, h]
  · simp [hm, List.nodup_append, h]

theorem foldl_prod (st : σ₁ × σ₂ → χ → σ₁ × σ₂) (s1 : σ₁ → χ → σ₁)
    (s2 : σ₂ → χ → σ₂) (h : ∀ a b x, st (a, b) x = (s1 a x, s2 b x)) :
    ∀ (xs : List χ) (a : σ₁) (b : σ₂),
      xs.foldl st (a, b) = (xs.foldl s1 a, xs.foldl s2 b) := by
  intro xs
  induction xs with
  | nil => intro a b; rfl
  | cons x rest ih => intro a b; simp only [List.foldl_cons, h a b x, ih]

theorem foldlExt (f g : σ → χ → σ) (xs : List χ)
    (h : ∀ a x, x ∈ xs → f a x = g a x) :
    ∀ a, xs.foldl f a = xs.foldl g a := by
  induction xs with
  | nil => intro a; rfl
  | cons x rest ih =>
    intro a
    simp only [List.foldl_cons, h a x (List.mem_cons_self x rest)]
    exact ih (fun a y hy => h a y (List.mem_cons_of_mem x hy)) _

theorem filterMapExt (f g : χ → Option β) (xs : List χ)
    (h : ∀ x ∈ xs, f x = g x) : xs.filterMap f = xs.filterMap g := by
  induction xs with
  | nil => rfl
  | cons x rest ih =>
    rw [List.filterMap_cons, List.filterMap_cons,
        h x (List.mem_cons_self x rest),
        ih (fun y hy => h y (List.mem_cons_of_mem x hy))]

theorem keys_filterMap_sublist (g : χ → Option (String × β)) (nm : χ → String)
    (hk : ∀ x kv, g x = some kv → kv.1 = nm x) (xs : List χ) :
    (keys (xs.filterMap g)).Sublist (xs.map nm) := by
  induction xs with
  | nil => simp [keys]
  | cons x rest ih =>
    cases hgx : g x with
    | none =>
      rw [List.filterMap_cons, hgx, List.map_cons]
      exact ih.cons _
    | some kv =>
      rw [List.filterMap_cons, hgx, List.map_cons]
      have : keys (kv :: rest.filterMap g) = kv.1 :: keys (rest.filterMap g) := rfl
      rw [this, hk x kv hgx]
      exact ih.cons₂ _

theorem insertFold_cons (g : χ → Option (String × β)) (acc : List (String × β))
    (x : χ) (xs : List χ) :
    insertFold g acc (x :: xs) =
      insertFold g
        (match g x with
         | some kv => odInsert acc kv.1 kv.2
         | none => acc) xs := rfl

theorem insertFold_eq_append (g : χ → Option (String × β)) :
    ∀ (xs : List χ) (acc : List (String × β)),
      (keys (xs.filterMap g)).Nodup →
      (∀ k ∈ keys (xs.filterMap g), k ∉ keys acc) →
      insertFold g acc xs = acc ++ xs.filterMap g := by
  intro xs
  induction xs with
  | nil =>
    intro acc _ _
    simp [insertFold]
  | cons x rest ih =>
    intro acc hnd hdis
    cases hgx : g x with
    | none =>
      rw [insertFold_cons, hgx, List.filterMap_cons, hgx]
      rw [List.filterMap_cons, hgx] at hnd hdis
      exact ih acc hnd hdis
    | some kv =>
      simp only [List.filterMap_cons, hgx, keys_cons] at hnd hdis
      have h1 : kv.1 ∉ keys acc :=
        hdis kv.1 (List.mem_cons_self _ _)
      have h2 : ∀ k ∈ keys (rest.filterMap g), k ∉ keys (acc ++ [(kv.1, kv.2)]) := by
        intro k hk
        have hkk : ¬ k = kv.1 := fun he => (hnd.not_mem (he ▸ hk)).elim
        have hka : k ∉ keys acc := hdis k (List.mem_cons_of_mem _ hk)
        have hkeys : keys (acc ++ [(kv.1, kv.2)]) = keys acc ++ [kv.1] := by
          simp [keys]
        rw [hkeys]
        intro hmem
        rcases List.mem_append.mp hmem with hin | hin
        · exact hka hin
        · exact hkk (List.mem_singleton.mp hin)
      simp only [insertFold_cons, hgx, List.filterMap_cons]
      rw [odInsert_not_mem kv.2 h1, ih (acc ++ [(kv.1, kv.2)]) hnd.of_cons h2,
          List.append_assoc]
      rfl

theorem alookup_filterMap (g : χ → Option (String × β)) (nm : χ → String)
    (hk : ∀ x kv, g x = some kv → kv.1 = nm x) :
    ∀ (xs : List χ), (xs.map nm).Nodup → ∀ x ∈ xs,
      alookup (xs.filterMap g) (nm x) = (g x).map Prod.snd := by
  intro xs
  induction xs with
  | nil =>
    intro _ x hx
    cases hx
  | cons y rest ih =>
    intro hnd x hx
    rw [List.map_cons] at hnd
    by_cases hyx : nm y = nm x
    · have hxy : x = y := by
        rcases List.mem_cons.mp hx with he | hm
        · exact he
        · exact absurd (hyx ▸ List.mem_map_of_mem nm hm) hnd.not_mem
      subst hxy
      cases hgx : g x with
      | some kv =>
        simp only [List.filterMap_cons, hgx, alookup, hk x kv hgx, if_pos rfl]
        rfl
      | none =>
        simp only [List.filterMap_cons, hgx]
        have hsub := keys_filterMap_sublist g nm hk rest
        have hnmem : nm x ∉ keys (rest.filterMap g) :=
          fun hmem => hnd.not_mem (hsub.mem hmem)
        rw [alookup_eq_none.mpr hnmem]
        rfl
    · have hm : x ∈ rest := by
        rcases List.mem_cons.mp hx with he | hm
        · exact absurd (he ▸ rfl) hyx
        · exact hm
      cases hgy : g y with
      | none =>
        simp only [List.filterMap_cons, hgy]
        exact ih hnd.of_cons x hm
      | some kv =>
        have hne : ¬ kv.1 = nm x := (hk y kv hgy).symm ▸ hyx
        simp only [List.filterMap_cons, hgy, alookup, if_neg hne]
        exact ih hnd.of_cons x hm

theorem insertFold_alookup_of_none (g : χ → Option (String × β)) (k : String) :
    ∀ (xs : List χ) (acc : List (String × β)),
      (∀ x ∈ xs, ∀ kv, g x = some kv → kv.1 ≠ k) →
      alookup (insertFold g acc xs) k = alookup acc k := by
  intro xs
  induction xs with
  | nil =>
    intro acc _
    rfl
  | cons x rest ih =>
    intro acc h
    cases hgx : g x with
    | none =>
      rw [insertFold_cons, hgx]
      exact ih acc (fun y hy => h y (List.mem_cons_of_mem x hy))
    | some kv =>
      rw [insertFold_cons, hgx]
      rw [ih _ (fun y hy => h y (List.mem_cons_of_mem x hy)),
          alookup_odInsert,
          if_neg (h x (List.mem_cons_self x rest) kv hgx)]

theorem insertFold_alookup_last (g : χ → Option (String × β)) (nm : χ → String)
    (hk : ∀ x kv, g x = some kv → kv.1 = nm x) :
    ∀ (xs : List χ) (acc : List (String × β)) (x : χ) (kv : String × β),
      (xs.map nm).Nodup → x ∈ xs → g x = some kv →
      alookup (insertFold g acc xs) kv.1 = some kv.2 := by
  intro xs
  induction xs with
  | nil =>
    intro _ x _ _ hx
    cases hx
  | cons y rest ih =>
    intro acc x kv hnd hx hgx
    rw [List.map_cons] at hnd
    by_cases hyx : nm y = nm x
    · have hxy : x = y := by
        rcases List.mem_cons.mp hx with he | hm
        · exact he
        · exact absurd (hyx ▸ List.mem_map_of_mem nm hm) hnd.not_mem
      subst hxy
      rw [insertFold_cons, hgx]
      have hnone : ∀ z ∈ rest, ∀ kw, g z = some kw → kw.1 ≠ kv.1 := by
        intro z hz kw hgz he
        exact hnd.not_mem
          (((hk z kw hgz).symm.trans ((he.trans (hk x kv hgx)) : kw.1 = nm x)) ▸
            List.mem_map_of_mem nm hz)
      rw [insertFold_alookup_of_none g kv.1 rest _ hnone, alookup_odInsert,
          if_pos rfl]
    · have hm : x ∈ rest := by
        rcases List.mem_cons.mp hx with he | hm
        · exact absurd (he ▸ rfl) hyx
        · exact hm
      cases hgy : g y with
      | none =>
        rw [insertFold_cons, hgy]
        exact ih acc x kv hnd.of_cons hm hgx
      | some kw =>
        rw [insertFold_cons, hgy]
        exact ih _ x kv hnd.of_cons hm hgx

theorem keys_insertFold_prefix (g : χ → Option (String × β)) :
    ∀ (xs : List χ) (acc : List (String × β)),
      ∃ ext, keys (insertFold g acc xs) = keys acc ++ ext := by
  intro xs
  induction xs with
  | nil =>
    intro acc
    exact ⟨[], by simp [insertFold]⟩
  | cons x rest ih =>
    intro acc
    cases hgx : g x with
    | none =>
      rw [insertFold_cons, hgx]
      exact ih acc
    | some kv =>
      rw [insertFold_cons, hgx]
      obtain ⟨ext, hext⟩ := ih (odInsert acc kv.1 kv.2)
      rw [hext, keys_odInsert]
      by_cases hm : kv.1 ∈ keys acc
      · exact ⟨ext, by rw [if_pos hm]⟩
      · exact ⟨[kv.1] ++ ext, by rw [if_neg hm, List.append_assoc]⟩

theorem nodup_keys_insertFold (g : χ → Option (String × β)) :
    ∀ (xs : List χ) (acc : List (String × β)),
      (keys acc).Nodup → (keys (insertFold g acc xs)).Nodup := by
  intro xs
  induction xs with
  | nil =>
    intro acc h
    exact h
  | cons x rest ih =>
    intro acc h
    cases hgx : g x with
    | none =>
      rw [insertFold_cons, hgx]
      exact ih acc h
    | some kv =>
      rw [insertFold_cons, hgx]
      exact ih _ (nodup_keys_odInsert kv.1 kv.2 h)

theorem gdF_key (meta : Meta V) (seed : Nat) (kwargs : List (String × V)) :
    ∀ (p : String × Field V) kv, gdF meta seed kwargs p = some kv → kv.1 = p.1 := by
  intro p kv h
  unfold gdF at h
  cases hr : resolvedValue meta seed kwargs p.1 p.2 with
  | none => rw [hr] at h; cases h
  | some v =>
    rw [hr, Option.some_bind] at h
    cases hv : p.2.validate v with
    | ok v2 => rw [hv] at h; cases h; rfl
    | error e => rw [hv] at h; cases h

theorem geF_key (meta : Meta V) (seed : Nat) (kwargs : List (String × V)) :
    ∀ (p : String × Field V) kv, geF meta seed kwargs p = some kv → kv.1 = p.1 := by
  intro p kv h
  unfold geF at h
  cases hr : resolvedValue meta seed kwargs p.1 p.2 with
  | none =>
    rw [hr] at h
    by_cases hreq : p.2.required
    · rw [if_pos hreq] at h; cases h; rfl
    · rw [if_neg hreq] at h; cases h
  | some v =>
    simp only [hr] at h
    cases hv : p.2.validate v with
    | ok v2 => rw [hv] at h; cases h
    | error e => rw [hv] at h; cases h; rfl

theorem gTo_key (d : Doc V) :
    ∀ (p : String × Field V) kv, gTo d p = some kv → kv.1 = p.2.mongo_name := by
  intro p kv h
  unfold gTo at h
  cases hr : alookup d._data p.1 with
  | none => rw [hr] at h; cases h
  | some v => rw [hr] at h; cases h; rfl

theorem gFrom_key (data : List (String × V)) :
    ∀ (p : String × Field V) kv, gFrom data p = some kv → kv.1 = p.1 := by
  intro p kv h
  unfold gFrom at h
  cases hr : alookup data p.2.mongo_name with
  | none => rw [hr] at h; cases h
  | some w => rw [hr] at h; cases h; rfl

theorem gF_key :
    ∀ (q : String × Member V) kv, gF q = some kv → kv.1 = q.1 := by
  intro q kv h
  obtain ⟨n, m⟩ := q
  unfold gF at h
  cases m with
  | field f => cases h; rfl
  | synonym o => cases h
  | other => cases h

theorem to_son_eq (meta : Meta V) (d : Doc V) :
    to_son meta d = insertFold (gTo d) [] meta.fields := by
  unfold to_son insertFold
  refine foldlExt _ _ _ (fun acc p _ => ?_) []
  cases h : alookup d._data p.1 <;> simp [gTo, h]

theorem set_son_eq (meta : Meta V) (data : List (String × V)) :
    (set_son meta data)._data = insertFold (gFrom data) [] meta.fields := by
  unfold set_son insertFold
  refine foldlExt _ _ _ (fun acc p _ => ?_) []
  cases h : alookup data p.2.mongo_name <;> simp [gFrom, h]

theorem initAccum_eq (meta : Meta V) (seed : Nat) (kwargs : List (String × V)) :
    initAccum meta seed kwargs =
      (insertFold (gdF meta seed kwargs) [] meta.fields,
       insertFold (geF meta seed kwargs) [] meta.fields) := by
  unfold initAccum insertFold
  refine foldl_prod _ _ _ (fun a b p => ?_) meta.fields [] []
  unfold initStep gdF geF
  cases hr : resolvedValue meta seed kwargs p.1 p.2 with
  | none => by_cases hreq : p.2.required <;> simp [hr, hreq]
  | some v => cases hv : p.2.validate v <;> simp [hr, hv]

theorem keys_initErrors_sub (meta : Meta V) (seed : Nat)
    (kwargs : List (String × V)) :
    (keys (initErrors meta seed kwargs)).Sublist (keys meta.fields) :=
  keys_filterMap_sublist _ Prod.fst (geF_key meta seed kwargs) meta.fields

theorem keys_initData_sub (meta : Meta V) (seed : Nat)
    (kwargs : List (String × V)) :
    (keys (initData meta seed kwargs)).Sublist (keys meta.fields) :=
  keys_filterMap_sublist _ Prod.fst (gdF_key meta seed kwargs) meta.fields

theorem initAccum_explicit (meta : Meta V) (seed : Nat)
    (kwargs : List (String × V)) (hkeys : (keys meta.fields).Nodup) :
    initAccum meta seed kwargs =
      (initData meta seed kwargs, initErrors meta seed kwargs) := by
  rw [initAccum_eq]
  have h1 : initData meta seed kwargs = [] ++ initData meta seed kwargs := rfl
  have h2 : initErrors meta seed kwargs = [] ++ initErrors meta seed kwargs := rfl
  rw [h1, h2]
  unfold initData initErrors
  rw [insertFold_eq_append _ meta.fields []
        (((keys_initData_sub meta seed kwargs).nodup hkeys))
        (fun k _ hk => by cases hk),
      insertFold_eq_append _ meta.fields []
        (((keys_initErrors_sub meta seed kwargs).nodup hkeys))
        (fun k _ hk => by cases hk)]

theorem docInit_ok_data (meta : Meta V) (seed : Nat) (kwargs : List (String × V))
    (d : Doc V) (hkeys : (keys meta.fields).Nodup)
    (hok : docInit meta seed kwargs = Except.ok d) :
    d._data = initData meta seed kwargs ∧ initErrors meta seed kwargs = [] := by
  unfold docInit at hok
  rw [initAccum_explicit meta seed kwargs hkeys] at hok
  by_cases he : (initErrors meta seed kwargs).isEmpty
  · rw [if_pos he] at hok
    cases hok
    exact ⟨rfl, List.isEmpty_iff.mp he⟩
  · rw [if_neg he] at hok
    cases hok

theorem docInit_error_of_ne (meta : Meta V) (seed : Nat)
    (kwargs : List (String × V)) (hkeys : (keys meta.fields).Nodup)
    (hne : initErrors meta seed kwargs ≠ []) :
    docInit meta seed kwargs = Except.error (initErrors meta seed kwargs) := by
  unfold docInit
  rw [initAccum_explicit meta seed kwargs hkeys,
      if_neg (fun he => hne (List.isEmpty_iff.mp he))]

theorem docInit_lookup (meta : Meta V) (seed : Nat) (kwargs : List (String × V))
    (d : Doc V) (p : String × Field V) (v v2 : V)
    (hkeys : (keys meta.fields).Nodup)
    (hok : docInit meta seed kwargs = Except.ok d)
    (hmem : p ∈ meta.fields)
    (hres : resolvedValue meta seed kwargs p.1 p.2 = some v)
    (hval : p.2.validate v = Except.ok v2) :
    alookup d._data p.1 = some v2 := by
  obtain ⟨hdata, -⟩ := docInit_ok_data meta seed kwargs d hkeys hok
  rw [hdata]
  unfold initData
  have := alookup_filterMap (gdF meta seed kwargs) Prod.fst
    (gdF_key meta seed kwargs) meta.fields hkeys p hmem
  rw [this]
  unfold gdF
  rw [hres]
  simp [hval]

theorem gather_inner (ns : List (String × Member V)) (a : List (String × Field V))
    (b : List (String × String)) :
    ns.foldl gatherStep (a, b) = (insertFold gF a ns, ns.foldl synStep b) := by
  unfold insertFold
  refine foldl_prod _ _ _ (fun a b q => ?_) ns a b
  obtain ⟨n, m⟩ := q
  cases m <;> simp [gatherStep, gF, synStep]

theorem gatherAll_fst (nss : List (List (String × Member V))) :
    (gatherAll nss).1 = fieldsAcc nss := by
  unfold gatherAll fieldsAcc
  rw [foldl_prod (fun acc ns => ns.foldl gatherStep acc)
        (fun a ns => insertFold gF a ns) (fun b ns => ns.foldl synStep b)
        (fun a b ns => gather_inner ns a b) nss [] []]

theorem get_fields_fst (nss : List (List (String × Member V))) :
    (get_fields nss).1 = fieldsAcc nss := gatherAll_fst nss

theorem nodup_keys_get_fields (nss : List (List (String × Member V))) :
    (keys (get_fields nss).1).Nodup := by
  rw [get_fields_fst]
  unfold fieldsAcc
  have : ∀ (ls : List (List (String × Member V)))
      (acc : List (String × Field V)), (keys acc).Nodup →
      (keys (ls.foldl (fun a ns => insertFold gF a ns) acc)).Nodup := by
    intro ls
    induction ls with
    | nil => intro acc h; exact h
    | cons ns rest ih =>
      intro acc h
      exact ih _ (nodup_keys_insertFold gF ns acc h)
  exact this nss [] (by simp [keys])

theorem mem_keys_of_alookup {l : List (String × α)} {k : String} {v : α}
    (h : alookup l k = some v) : k ∈ keys l := by
  by_contra hmem
  rw [alookup_eq_none.mpr hmem] at h
  cases h

/-- C3: walking the resolved inheritance order oldest-to-newest, a field name
redeclared in a subclass leaves exactly one schema entry under that name,
holding the subclass's descriptor (with its canonical name assigned), at the
position where the name first appeared in the base class's schema. -/
theorem c3_override_keeps_position (nsB nsS : List (String × Member V))
    (x : String) (fb fs : Field V)
    (hB : (x, Member.field fb) ∈ nsB) (hS : (x, Member.field fs) ∈ nsS)
    (hkB : (keys nsB).Nodup) (hkS : (keys nsS).Nodup) :
    (keys (get_fields [nsB, nsS]).1).count x = 1
    ∧ alookup (get_fields [nsB, nsS]).1 x = some (withName fs x)
    ∧ x ∈ keys (get_fields [nsB]).1
    ∧ (keys (get_fields [nsB, nsS]).1).indexOf x =
        (keys (get_fields [nsB]).1).indexOf x := by
  have hF : (get_fields [nsB, nsS]).1 =
      insertFold gF (insertFold gF [] nsB) nsS := by
    rw [get_fields_fst]
    rfl
  have hFB : (get_fields [nsB]).1 = insertFold gF [] nsB := by
    rw [get_fields_fst]
    rfl
  have hlook : alookup (insertFold gF (insertFold gF [] nsB) nsS) x =
      some (withName fs x) :=
    insertFold_alookup_last gF Prod.fst gF_key nsS (insertFold gF [] nsB)
      (x, Member.field fs) (x, withName fs x) hkS hS rfl
  have hlookB : alookup (insertFold gF [] nsB) x = some (withName fb x) :=
    insertFold_alookup_last gF Prod.fst gF_key nsB []
      (x, Member.field fb) (x, withName fb x) hkB hB rfl
  have hmemB : x ∈ keys (insertFold gF [] nsB) := mem_keys_of_alookup hlookB
  have hnodup : (keys (insertFold gF (insertFold gF [] nsB) nsS)).Nodup :=
    nodup_keys_insertFold gF nsS _
      (nodup_keys_insertFold gF nsB [] (by simp [keys]))
  have hmemF : x ∈ keys (insertFold gF (insertFold gF [] nsB) nsS) :=
    mem_keys_of_alookup hlook
  obtain ⟨ext, hext⟩ := keys_insertFold_prefix gF nsS (insertFold gF [] nsB)
  refine ⟨?_, ?_, ?_, ?_⟩
  · rw [hF]
    exact List.count_eq_one_of_mem hnodup hmemF
  · rw [hF]
    exact hlook
  · rw [hFB]
    exact hmemB
  · rw [hF, hFB, hext]
    exact List.indexOf_append_of_mem hmemB

/-- C3 witness: base class declaring `x` (default 1) then `y`; subclass
redeclaring `x` (default 2): one entry for `x`, the subclass's descriptor, at
index 0 where `x` first appeared. -/
theorem c3_witness :
    (keys (get_fields [nsBase, nsSub]).1).count "x" = 1
    ∧ alookup (get_fields [nsBase, nsSub]).1 "x" =
        some (withName (simpleField "x" false (some 2)) "x")
    ∧ "x" ∈ keys (get_fields [nsBase]).1
    ∧ (keys (get_fields [nsBase, nsSub]).1).indexOf "x" =
        (keys (get_fields [nsBase]).1).indexOf "x" :=
  c3_override_keeps_position nsBase nsSub "x"
    (simpleField "x" false (some 1)) (simpleField "x" false (some 2))
    (List.Mem.head _) (List.Mem.head _) (by decide) (by decide)

/-- C8: a Meta options block holding any key outside the recognized option set
fails with a configuration error carrying exactly the offending keys (every
one of them, nothing else), while a block of only recognized keys never
triggers the error. -/
theorem c8_unrecognized_options :
    (∀ ks : List String, (∃ k ∈ ks, k ∉ OPTIONS) →
       ∃ E, validate_options ks = Except.error E ∧ E ≠ [] ∧
         ∀ k, k ∈ E ↔ (k ∈ ks ∧ k ∉ OPTIONS))
    ∧ ∀ ks : List String, (∀ k ∈ ks, k ∈ OPTIONS) →
        validate_options ks = Except.ok () := by
  constructor
  · rintro ks ⟨k0, hk0, hk0n⟩
    have hmem : k0 ∈ ks.filter fun k => decide (k ∉ OPTIONS) :=
      List.mem_filter.mpr ⟨hk0, by simpa using hk0n⟩
    refine ⟨ks.filter fun k => decide (k ∉ OPTIONS), ?_, ?_, ?_⟩
    · unfold validate_options
      rw [if_neg]
      intro he
      rw [List.isEmpty_iff.mp he] at hmem
      cases hmem
    · exact List.ne_nil_of_mem hmem
    · intro k
      simp [List.mem_filter]
  · intro ks hall
    unfold validate_options
    rw [if_pos]
    rw [List.isEmpty_iff, List.filter_eq_nil_iff]
    intro k hk
    simpa using hall k hk

/-- C8 witness: the unrecognized key `collection` is reported (and is the
whole error), while a block of recognized keys passes. -/
theorem c8_witness :
    (∃ E, validate_options ["collection_name", "collection"] = Except.error E
      ∧ E ≠ [] ∧ ∀ k, k ∈ E ↔
        (k ∈ ["collection_name", "collection"] ∧ k ∉ OPTIONS))
    ∧ validate_options ["collection_name", "indexes"] = Except.ok () :=
  ⟨c8_unrecognized_options.1 _ ⟨"collection", by decide, by decide⟩,
   c8_unrecognized_options.2 _ (by decide)⟩

/-- C9: resolved meta options are computed from the class's own Meta block
only, never an ancestor's (two classes with the same name and own block get
identical options whatever their ancestors declare); unset options are filled
with computed defaults — collection_name defaults to the snake case of the
class name, query_class to the default query class. -/
theorem c9_options_not_inherited (V : Type) :
    (∀ d1 d2 : ClassDecl V, d1.className = d2.className →
       d1.ownMeta = d2.ownMeta →
       document_get_meta_options d1 = document_get_meta_options d2)
    ∧ (∀ d : ClassDecl V,
        alookup (base_get_meta_options d) "collection_name" = none →
        alookup (document_get_meta_options d) "collection_name" =
          some (OptVal.str (snake_case d.className)))
    ∧ ∀ d : ClassDecl V,
        alookup (base_get_meta_options d) "query_class" = none →
        alookup (document_get_meta_options d) "query_class" =
          some OptVal.motorQuerySet := by
  refine ⟨?_, ?_, ?_⟩
  · intro d1 d2 h1 h2
    obtain ⟨n1, nss1, om1, am1⟩ := d1
    obtain ⟨n2, nss2, om2, am2⟩ := d2
    simp only at h1 h2
    subst h1
    subst h2
    rfl
  · intro d h
    simp only [document_get_meta_options, h]
    cases hq : alookup (odInsert (base_get_meta_options d) "collection_name"
        (OptVal.str (snake_case d.className))) "query_class" with
    | some w =>
      simp only [hq]
      rw [alookup_odInsert, if_pos rfl]
    | none =>
      simp only [hq]
      rw [alookup_odInsert, if_neg (by decide), alookup_odInsert, if_pos rfl]
  · intro d h
    cases hc : alookup (base_get_meta_options d) "collection_name" with
    | some w =>
      simp only [document_get_meta_options, hc, h]
      rw [alookup_odInsert, if_pos rfl]
    | none =>
      have hq : alookup (odInsert (base_get_meta_options d) "collection_name"
          (OptVal.str (snake_case d.className))) "query_class" = none := by
        rw [alookup_odInsert, if_neg (by decide)]
        exact h
      simp only [document_get_meta_options, hc, hq]
      rw [alookup_odInsert, if_pos rfl]

/-- C9 witness: two declarations sharing name and own Meta block but with
different ancestors resolve to the same options, and the collection name
defaults to the snake case of the class name. -/
theorem c9_witness :
    document_get_meta_options declA = document_get_meta_options declB
    ∧ alookup (document_get_meta_options declA) "collection_name" =
        some (OptVal.str (snake_case "MyUser")) :=
  ⟨(c9_options_not_inherited Int).1 declA declB rfl rfl,
   (c9_options_not_inherited Int).2.1 declA (by decide)⟩

theorem keys_filterMap_guard (pr : χ → Bool) (nm : χ → String) (c : χ → β)
    (xs : List χ) :
    keys (xs.filterMap fun x => if pr x = true then some (nm x, c x) else none) =
      (xs.filter pr).map nm := by
  induction xs with
  | nil => rfl
  | cons x rest ih =>
    by_cases h : pr x = true
    · simp [List.filterMap_cons, List.filter_cons, h, keys_cons, ih]
    · simp [List.filterMap_cons, List.filter_cons, h, ih]

/-- C1: validated construction checks every schema field before failing: when
every resolvable value validates and some required fields resolve no value at
all (absent under canonical and synonym name, no default), `__init__` raises a
single aggregated error whose key set is exactly those omitted required fields
— all of them at once, never only the first. -/
theorem c1_aggregated_required_errors (meta : Meta V) (seed : Nat)
    (kwargs : List (String × V))
    (hkeys : (keys meta.fields).Nodup)
    (hval : ∀ p ∈ meta.fields,
      ((resolvedValue meta seed kwargs p.1 p.2).all
        fun v => (p.2.validate v).isOk) = true)
    (hmiss : ∃ p ∈ meta.fields,
      ((resolvedValue meta seed kwargs p.1 p.2).isNone && p.2.required) = true) :
    ∃ E, docInit meta seed kwargs = Except.error E ∧
      keys E = keys (meta.fields.filter fun p =>
        (resolvedValue meta seed kwargs p.1 p.2).isNone && p.2.required) := by
  have hpt : ∀ p ∈ meta.fields, geF meta seed kwargs p =
      if ((resolvedValue meta seed kwargs p.1 p.2).isNone && p.2.required) = true
      then some (p.1, "field is required") else none := by
    intro p hp
    have hv := hval p hp
    cases hr : resolvedValue meta seed kwargs p.1 p.2 with
    | none => by_cases hreq : p.2.required <;> simp [geF, hr, hreq]
    | some v =>
      rw [hr] at hv
      have hv2 : (p.2.validate v).isOk = true := by simpa [Option.all] using hv
      cases hval2 : p.2.validate v with
      | ok v2 => simp [geF, hr, hval2]
      | error e =>
        rw [hval2] at hv2
        cases hv2
  have herr : initErrors meta seed kwargs = meta.fields.filterMap fun p =>
      if ((resolvedValue meta seed kwargs p.1 p.2).isNone && p.2.required) = true
      then some (p.1, "field is required") else none := by
    unfold initErrors
    exact filterMapExt _ _ _ hpt
  have hne : initErrors meta seed kwargs ≠ [] := by
    obtain ⟨p, hp, hpred⟩ := hmiss
    intro hnil
    have hg : geF meta seed kwargs p = some (p.1, "field is required") := by
      rw [hpt p hp, if_pos hpred]
    have hmem : (p.1, "field is required") ∈ initErrors meta seed kwargs :=
      List.mem_filterMap.mpr ⟨p, hp, hg⟩
    rw [hnil] at hmem
    cases hmem
  refine ⟨initErrors meta seed kwargs,
    docInit_error_of_ne meta seed kwargs hkeys hne, ?_⟩
  rw [herr]
  exact keys_filterMap_guard _ Prod.fst _ meta.fields

/-- C1 witness: required `a` and `b` both omitted (optional `c` also absent):
the aggregated error keys are exactly the omitted required fields. -/
theorem c1_witness :
    ∃ E, docInit metaReq 0 [] = Except.error E ∧
      keys E = keys (metaReq.fields.filter fun p =>
        (resolvedValue metaReq 0 [] p.1 p.2).isNone && p.2.required) :=
  c1_aggregated_required_errors metaReq 0 [] (by decide) (by decide) (by decide)

/-- C6: each field's value is resolved by precedence — the canonical name in
the raw input first, then the field's registered synonym name, then the
field's default — and a value supplied under the synonym name ends up stored
under the canonical field name in the constructed instance. -/
theorem c6_synonym_resolution (meta : Meta V) (seed : Nat)
    (kwargs : List (String × V)) :
    (∀ (fn : String) (f : Field V) (v : V), alookup kwargs fn = some v →
       resolvedValue meta seed kwargs fn f = some v)
    ∧ (∀ (fn syn : String) (f : Field V) (v : V), alookup kwargs fn = none →
       alookup meta.fields_synonyms fn = some syn → alookup kwargs syn = some v →
       resolvedValue meta seed kwargs fn f = some v)
    ∧ (∀ (fn : String) (f : Field V),
       get_field_value_from_data meta kwargs fn = none →
       resolvedValue meta seed kwargs fn f = f.default seed)
    ∧ ∀ (fn syn : String) (f : Field V) (v v2 : V) (d : Doc V),
        (keys meta.fields).Nodup → (fn, f) ∈ meta.fields →
        alookup kwargs fn = none →
        alookup meta.fields_synonyms fn = some syn →
        alookup kwargs syn = some v →
        f.validate v = Except.ok v2 →
        docInit meta seed kwargs = Except.ok d →
        alookup d._data fn = some v2 := by
  refine ⟨?_, ?_, ?_, ?_⟩
  · intro fn f v h
    unfold resolvedValue get_field_value_from_data
    rw [h]
  · intro fn syn f v h1 h2 h3
    unfold resolvedValue get_field_value_from_data
    rw [h1, h2, Option.some_bind, h3]
  · intro fn f h
    unfold resolvedValue
    rw [h]
  · intro fn syn f v v2 d hkeys hmem h1 h2 h3 hv hok
    have hres : resolvedValue meta seed kwargs fn f = some v := by
      unfold resolvedValue get_field_value_from_data
      rw [h1, h2, Option.some_bind, h3]
    exact docInit_lookup meta seed kwargs d (fn, f) v v2 hkeys hok hmem hres hv

/-- C6 witness: field `value` with synonym `val`; constructing with
`{val: 5}` resolves `5` for `value` and stores it under the canonical name. -/
theorem c6_witness :
    resolvedValue metaSyn 0 [("val", (5 : Int))] "value"
      (simpleField "value" true none) = some 5
    ∧ alookup (Doc.mk [("value", (5 : Int))])._data "value" = some 5 :=
  ⟨(c6_synonym_resolution metaSyn 0 [("val", (5 : Int))]).2.1 "value" "val"
      (simpleField "value" true none) 5 rfl rfl rfl,
   (c6_synonym_resolution metaSyn 0 [("val", (5 : Int))]).2.2.2 "value" "val"
      (simpleField "value" true none) 5 5 (Doc.mk [("value", (5 : Int))])
      (by decide) (List.Mem.head _) rfl rfl rfl rfl rfl⟩

/-- C10: raw-input keys matching no canonical field name and no registered
synonym of any field are silently ignored — construction returns the
identical result with or without them — and a successfully built instance
maps schema field names only. -/
theorem c10_unknown_keys_ignored (meta : Meta V) (seed : Nat)
    (kwargs extra : List (String × V))
    (hkeys : (keys meta.fields).Nodup)
    (hextra : ∀ q ∈ extra, ∀ p ∈ meta.fields,
      q.1 ≠ p.1 ∧ alookup meta.fields_synonyms p.1 ≠ some q.1) :
    docInit meta seed (kwargs ++ extra) = docInit meta seed kwargs
    ∧ ∀ d, docInit meta seed kwargs = Except.ok d →
        ∀ k ∈ keys d._data, k ∈ keys meta.fields := by
  have hget : ∀ p ∈ meta.fields,
      get_field_value_from_data meta (kwargs ++ extra) p.1 =
      get_field_value_from_data meta kwargs p.1 := by
    intro p hp
    have hex : alookup extra p.1 = none := by
      rw [alookup_eq_none]
      intro hmem
      obtain ⟨q, hq, hq1⟩ := List.mem_map.mp hmem
      exact (hextra q hq p hp).1 hq1
    unfold get_field_value_from_data
    rw [alookup_append]
    cases hc : alookup kwargs p.1 with
    | some v => rfl
    | none =>
      rw [hex]
      cases hs : alookup meta.fields_synonyms p.1 with
      | none => rfl
      | some syn =>
        rw [Option.some_bind, Option.some_bind, alookup_append]
        cases hcs : alookup kwargs syn with
        | some v => rfl
        | none =>
          rw [alookup_eq_none]
          intro hmem
          obtain ⟨q, hq, hq1⟩ := List.mem_map.mp hmem
          exact (hextra q hq p hp).2 (hq1 ▸ hs)
  have hacc : initAccum meta seed (kwargs ++ extra) = initAccum meta seed kwargs := by
    unfold initAccum
    refine foldlExt _ _ _ (fun acc p hp => ?_) ([], [])
    unfold initStep resolvedValue
    rw [hget p hp]
  constructor
  · unfold docInit
    rw [hacc]
  · intro d hok k hk
    obtain ⟨hdata, -⟩ := docInit_ok_data meta seed kwargs d hkeys hok
    rw [hdata] at hk
    exact (keys_initData_sub meta seed kwargs).mem hk

/-- C10 witness: the unknown key `junk` leaves construction unchanged, and
the built instance holds schema field names only. -/
theorem c10_witness :
    docInit metaSyn 0 ([("val", (5 : Int))] ++ [("junk", 9)]) =
      docInit metaSyn 0 [("val", (5 : Int))]
    ∧ ∀ d, docInit metaSyn 0 [("val", (5 : Int))] = Except.ok d →
        ∀ k ∈ keys d._data, k ∈ keys metaSyn.fields :=
  c10_unknown_keys_ignored metaSyn 0 [("val", 5)] [("junk", 9)]
    (by decide) (by decide)

/-- C7: `to_son` emits exactly the fields present in the instance's `_data`,
in schema order, each under its wire name with its wire-converted value; a
field with no value set contributes no key to the record at all. -/
theorem c7_to_son_sparse (meta : Meta V) (d : Doc V)
    (hmongo : (meta.fields.map fun p => p.2.mongo_name).Nodup) :
    to_son meta d = meta.fields.filterMap (fun p =>
      (alookup d._data p.1).map fun v => (p.2.mongo_name, p.2.to_son v))
    ∧ ∀ p ∈ meta.fields, alookup d._data p.1 = none →
        p.2.mongo_name ∉ keys (to_son meta d) := by
  have hts : to_son meta d = meta.fields.filterMap (gTo d) := by
    rw [to_son_eq]
    exact insertFold_eq_append (gTo d) meta.fields []
      ((keys_filterMap_sublist (gTo d) (fun p => p.2.mongo_name) (gTo_key d)
        meta.fields).nodup hmongo)
      (fun k _ hk => by cases hk)
  refine ⟨hts, ?_⟩
  intro p hp hnone
  rw [hts]
  intro hmem
  have hg : gTo d p = none := by
    unfold gTo
    rw [hnone]
    rfl
  have hlook := alookup_filterMap (gTo d) (fun p => p.2.mongo_name) (gTo_key d)
      meta.fields hmongo p hp
  rw [hg] at hlook
  exact (alookup_eq_none.mp hlook) hmem

/-- C7 witness: an instance without a value for the optional `age` field
serializes to a record with no `age` key at all. -/
theorem c7_witness :
    to_son metaRt (Doc.mk [("name", (7 : Int))]) =
      metaRt.fields.filterMap (fun p =>
        (alookup (Doc.mk [("name", (7 : Int))])._data p.1).map
          fun v => (p.2.mongo_name, p.2.to_son v))
    ∧ ∀ p ∈ metaRt.fields,
        alookup (Doc.mk [("name", (7 : Int))])._data p.1 = none →
        p.2.mongo_name ∉ keys (to_son metaRt (Doc.mk [("name", (7 : Int))])) :=
  c7_to_son_sparse metaRt (Doc.mk [("name", 7)]) (by decide)

/-- C5: the trusted load path never validates: the loaded instance holds
exactly the schema fields whose wire name is present in the record (converted
from wire form); record entries matching no field's wire name are silently
ignored (appending such entries changes nothing), and schema fields whose
wire name is absent are silently left unset rather than failing. -/
theorem c5_from_son_trusted (meta : Meta V) (record : List (String × V))
    (hkeys : (keys meta.fields).Nodup) :
    (from_son meta record)._data = meta.fields.filterMap (fun p =>
      (alookup record p.2.mongo_name).map fun w => (p.1, p.2.from_son w))
    ∧ (∀ k ∈ keys (from_son meta record)._data, k ∈ keys meta.fields)
    ∧ (∀ p ∈ meta.fields, alookup record p.2.mongo_name = none →
        p.1 ∉ keys (from_son meta record)._data)
    ∧ ∀ extra : List (String × V),
        (∀ q ∈ extra, ∀ p ∈ meta.fields, q.1 ≠ p.2.mongo_name) →
        from_son meta (record ++ extra) = from_son meta record := by
  have hss : (from_son meta record)._data = meta.fields.filterMap (gFrom record) := by
    unfold from_son
    rw [set_son_eq]
    exact insertFold_eq_append (gFrom record) meta.fields []
      ((keys_filterMap_sublist (gFrom record) Prod.fst (gFrom_key record)
        meta.fields).nodup hkeys)
      (fun k _ hk => by cases hk)
  refine ⟨hss, ?_, ?_, ?_⟩
  · intro k hk
    rw [hss] at hk
    exact (keys_filterMap_sublist (gFrom record) Prod.fst (gFrom_key record)
      meta.fields).mem hk
  · intro p hp hnone hmem
    rw [hss] at hmem
    have hg : gFrom record p = none := by
      unfold gFrom
      rw [hnone]
      rfl
    have hlook := alookup_filterMap (gFrom record) Prod.fst (gFrom_key record)
        meta.fields hkeys p hp
    rw [hg] at hlook
    exact (alookup_eq_none.mp hlook) hmem
  · intro extra hextra
    unfold from_son set_son
    refine congrArg Doc.mk ?_
    refine foldlExt _ _ _ (fun acc p hp => ?_) []
    have hex : alookup extra p.2.mongo_name = none := by
      rw [alookup_eq_none]
      intro hmem
      obtain ⟨q, hq, hq1⟩ := List.mem_map.mp hmem
      exact (hextra q hq p hp) hq1
    rw [alookup_append]
    cases hc : alookup record p.2.mongo_name with
    | some w => rfl
    | none => rw [hex]

/-- C5 witness: a record with an unknown `junk` entry and no `age` entry
loads with the junk ignored and `age` unset. -/
theorem c5_witness :
    (from_son metaRt [("junk", (3 : Int)), ("name", 8)])._data =
      metaRt.fields.filterMap (fun p =>
        (alookup [("junk", (3 : Int)), ("name", 8)] p.2.mongo_name).map
          fun w => (p.1, p.2.from_son w))
    ∧ (∀ k ∈ keys (from_son metaRt [("junk", (3 : Int)), ("name", 8)])._data,
        k ∈ keys metaRt.fields)
    ∧ (∀ p ∈ metaRt.fields,
        alookup [("junk", (3 : Int)), ("name", 8)] p.2.mongo_name = none →
        p.1 ∉ keys (from_son metaRt [("junk", (3 : Int)), ("name", 8)])._data)
    ∧ ∀ extra : List (String × Int),
        (∀ q ∈ extra, ∀ p ∈ metaRt.fields, q.1 ≠ p.2.mongo_name) →
        from_son metaRt ([("junk", (3 : Int)), ("name", 8)] ++ extra) =
          from_son metaRt [("junk", (3 : Int)), ("name", 8)] :=
  c5_from_son_trusted metaRt [("junk", 3), ("name", 8)] (by decide)

/-- C2: the wire round trip — an instance produced by validated construction,
serialized with `to_son` and loaded back through the trusted `from_son` path,
is reproduced value-equal, for schemas whose per-field wire conversions are
round-trip-exact. -/
theorem c2_roundtrip (meta : Meta V) (seed : Nat) (kwargs : List (String × V))
    (d : Doc V)
    (hkeys : (keys meta.fields).Nodup)
    (hmongo : (meta.fields.map fun p => p.2.mongo_name).Nodup)
    (hrt : ∀ p ∈ meta.fields, ∀ v : V, p.2.from_son (p.2.to_son v) = v)
    (hok : docInit meta seed kwargs = Except.ok d) :
    from_son meta (to_son meta d) = d := by
  obtain ⟨hdata, -⟩ := docInit_ok_data meta seed kwargs d hkeys hok
  have hts : to_son meta d = meta.fields.filterMap (gTo d) := by
    rw [to_son_eq]
    exact insertFold_eq_append (gTo d) meta.fields []
      ((keys_filterMap_sublist (gTo d) (fun p => p.2.mongo_name) (gTo_key d)
        meta.fields).nodup hmongo)
      (fun k _ hk => by cases hk)
  have hss : (from_son meta (to_son meta d))._data =
      meta.fields.filterMap (gFrom (to_son meta d)) := by
    unfold from_son
    rw [set_son_eq]
    exact insertFold_eq_append (gFrom (to_son meta d)) meta.fields []
      ((keys_filterMap_sublist (gFrom (to_son meta d)) Prod.fst
        (gFrom_key (to_son meta d)) meta.fields).nodup hkeys)
      (fun k _ hk => by cases hk)
  have hpt : ∀ p ∈ meta.fields,
      gFrom (to_son meta d) p = (alookup d._data p.1).map fun v => (p.1, v) := by
    intro p hp
    unfold gFrom
    rw [hts, alookup_filterMap (gTo d) (fun p => p.2.mongo_name) (gTo_key d)
          meta.fields hmongo p hp]
    cases hv : alookup d._data p.1 with
    | none => simp [gTo, hv]
    | some v => simp [gTo, hv, hrt p hp]
  have hpt2 : ∀ p ∈ meta.fields,
      ((alookup d._data p.1).map fun v => (p.1, v)) = gdF meta seed kwargs p := by
    intro p hp
    rw [hdata]
    unfold initData
    rw [alookup_filterMap (gdF meta seed kwargs) Prod.fst
          (gdF_key meta seed kwargs) meta.fields hkeys p hp]
    cases hg : gdF meta seed kwargs p with
    | none => rfl
    | some kv =>
      have hk1 := gdF_key meta seed kwargs p kv hg
      exact congrArg some (Prod.ext hk1.symm rfl)
  have hfinal : (from_son meta (to_son meta d))._data = d._data := by
    rw [hss, filterMapExt _ _ _ (fun p hp => (hpt p hp).trans (hpt2 p hp)), hdata]
    rfl
  cases d with
  | mk dd => exact congrArg Doc.mk hfinal

/-- C2 witness: constructing with `{name: 7}` (optional `age` filled from its
default `0`), serializing and loading back reproduces the instance. -/
theorem c2_witness :
    from_son metaRt (to_son metaRt (Doc.mk [("name", (7 : Int)), ("age", 0)])) =
      Doc.mk [("name", (7 : Int)), ("age", 0)] :=
  c2_roundtrip metaRt 0 [("name", 7)] (Doc.mk [("name", 7), ("age", 0)])
    (by decide) (by decide)
    (fun p hp v => by fin_cases hp <;> rfl) rfl

/-- C4: decided entirely at class-definition time by `DocumentMeta._get_fields`:
a hierarchy declaring no `_id` field gets the default identifier field
injected — required, with a default producing a freshly generated value — so
two instances constructed with distinct freshness seeds never share an
identifier; a hierarchy declaring a non-required `_id` field fails class
definition with a configuration error. -/
theorem c4_id_injection (objId : Nat → V) (className : String)
    (nss : List (List (String × Member V))) :
    (alookup (get_fields nss).1 "_id" = none →
      document_get_fields objId className nss =
        Except.ok (odInsert (get_fields nss).1 "_id" (default_id_field objId),
          (get_fields nss).2)
      ∧ (default_id_field objId : Field V).required = true
      ∧ ∀ n, (default_id_field objId : Field V).default n = some (objId n))
    ∧ (∀ idf : Field V, alookup (get_fields nss).1 "_id" = some idf →
        idf.required = false →
        document_get_fields objId className nss =
          Except.error (className ++ "._id field should be required."))
    ∧ ∀ (fs : List (String × Field V)) (sy : List (String × String))
        (n m : Nat) (d1 d2 : Doc V),
        Function.Injective objId → n ≠ m →
        alookup (get_fields nss).1 "_id" = none →
        document_get_fields objId className nss = Except.ok (fs, sy) →
        docInit ⟨fs, sy⟩ n [] = Except.ok d1 →
        docInit ⟨fs, sy⟩ m [] = Except.ok d2 →
        alookup d1._data "_id" ≠ alookup d2._data "_id" := by
  refine ⟨?_, ?_, ?_⟩
  · intro h
    refine ⟨?_, rfl, fun n => rfl⟩
    unfold document_get_fields
    rw [h]
  · intro idf h hreq
    simp only [document_get_fields, h]
    rw [hreq]
    rfl
  · intro fs sy n m d1 d2 hinj hnm h hdoc hok1 hok2
    unfold document_get_fields at hdoc
    rw [h] at hdoc
    have hfs : fs = odInsert (get_fields nss).1 "_id" (default_id_field objId) := by
      cases hdoc
      rfl
    have hnotmem : "_id" ∉ keys (get_fields nss).1 := alookup_eq_none.mp h
    have hmem : ("_id", default_id_field objId) ∈ fs := by
      rw [hfs, odInsert_not_mem _ hnotmem]
      exact List.mem_append_right _ (List.Mem.head _)
    have hnd : (keys fs).Nodup := by
      rw [hfs]
      exact nodup_keys_odInsert _ _ (nodup_keys_get_fields nss)
    have hres : ∀ j : Nat,
        resolvedValue ⟨fs, sy⟩ j [] "_id" (default_id_field objId) =
          some (objId j) := by
      intro j
      unfold resolvedValue get_field_value_from_data
      cases hsy : alookup sy "_id" with
      | none => rfl
      | some syn => rfl
    have hl1 : alookup d1._data "_id" = some (objId n) :=
      docInit_lookup ⟨fs, sy⟩ n [] d1 ("_id", default_id_field objId)
        (objId n) (objId n) hnd hok1 hmem (hres n) rfl
    have hl2 : alookup d2._data "_id" = some (objId m) :=
      docInit_lookup ⟨fs, sy⟩ m [] d2 ("_id", default_id_field objId)
        (objId m) (objId m) hnd hok2 hmem (hres m) rfl
    rw [hl1, hl2]
    intro he
    exact hnm (hinj (Option.some.inj he))

/-- C4 witness: a class declaring only an optional `name` field gets the
required `_id` field injected, and instances built with seeds 0 and 1 carry
distinct identifiers. -/
theorem c4_witness :
    (document_get_fields (fun j => (j : Int)) "Thing" nssId =
        Except.ok (odInsert (get_fields nssId).1 "_id"
          (default_id_field fun j => (j : Int)), (get_fields nssId).2)
      ∧ (default_id_field (fun j => (j : Int)) : Field Int).required = true
      ∧ ∀ n, (default_id_field (fun j => (j : Int)) : Field Int).default n =
          some ((n : Int)))
    ∧ alookup (Doc.mk [("_id", (0 : Int))])._data "_id" ≠
        alookup (Doc.mk [("_id", (1 : Int))])._data "_id" :=
  ⟨(c4_id_injection (fun j => (j : Int)) "Thing" nssId).1 rfl,
   (c4_id_injection (fun j => (j : Int)) "Thing" nssId).2.2
     (odInsert (get_fields nssId).1 "_id" (default_id_field fun j => (j : Int)))
     (get_fields nssId).2 0 1 (Doc.mk [("_id", 0)]) (Doc.mk [("_id", 1)])
     (fun a b hab => by simpa using hab) (by decide) rfl rfl rfl rfl⟩

end Aiomongodel
